import Mathlib

/-!
Verification of the mantaray command dispatcher (src/mantaray/commands.py).

The Python module is shallowly embedded: strings are lists of characters,
Python str.split / str.splitlines / str.count and the two regular
expressions of the module are modelled by executable Lean functions, the
tkinter confirmation dialog is modelled by a boolean answer passed in, and
the side effects (IrcCore backend calls, View.add_message calls, dialog
invocations, registry lookups) are collected into an explicit outcome
value, in the order the Python code issues them.
-/

namespace Mantaray

/-- The characters CPython str.split and str.strip treat as whitespace,
the complete Py_UNICODE_ISSPACE set: the ASCII and Latin-1 whitespace and
the Unicode space and line separators. -/
def pyWsChars : List Char :=
  ['\t', '\n', '\x0b', '\x0c', '\r', '\x1c', '\x1d', '\x1e', '\x1f', ' ',
   '\x85', '\xa0', '\u1680', '\u2000', '\u2001', '\u2002', '\u2003',
   '\u2004', '\u2005', '\u2006', '\u2007', '\u2008', '\u2009', '\u200a',
   '\u2028', '\u2029', '\u202f', '\u205f', '\u3000']

/-- Membership test for the whitespace set of Python str.split. -/
def isPyWs (c : Char) : Bool :=
  pyWsChars.contains c

/-- Characters on which Python str.splitlines breaks lines. -/
def isLineBoundary (c : Char) : Bool :=
  c = '\n' || c = '\r' || c = '\x0b' || c = '\x0c' ||
  c = '\x1c' || c = '\x1d' || c = '\x1e' || c = '\x85' ||
  c = '\u2028' || c = '\u2029'

def isLowerAZ (c : Char) : Bool := 'a' ≤ c && c ≤ 'z'

def isIdentChar (c : Char) : Bool := isLowerAZ c || c = '_'

/-- Drop the leading run of Python whitespace. -/
def dropWs : List Char → List Char
  | [] => []
  | c :: rest => if isPyWs c then dropWs rest else c :: rest

/-- Take the leading run of non-whitespace characters, returning it together
with the remainder of the string. -/
def takeTok : List Char → List Char × List Char
  | [] => ([], [])
  | c :: rest =>
    if isPyWs c then ([], c :: rest)
    else
      let p := takeTok rest
      (c :: p.1, p.2)

/-- Python str.split with a maxsplit bound, after the leading whitespace has
already been removed: while splits remain, peel a token and the following
whitespace run; once the bound is reached the remainder is kept verbatim. -/
def pySplitGo : Nat → List Char → List (List Char)
  | _, [] => []
  | 0, s => [s]
  | n + 1, s =>
    let p := takeTok s
    p.1 :: pySplitGo n (dropWs p.2)

/-- Python entry_content.split(maxsplit=n): split on runs of whitespace,
performing at most n splits, discarding leading and trailing whitespace. -/
def pySplit (s : List Char) (maxsplit : Nat) : List (List Char) :=
  pySplitGo maxsplit (dropWs s)

/-- The first whitespace-delimited token, Python entry_content.split()[0]
(total: the empty string yields the empty token). -/
def firstTok (s : List Char) : List Char :=
  (takeTok (dropWs s)).1

/-- Worker for Python str.splitlines: cut the string at every line
boundary, where a carriage return directly followed by a line feed counts
as one boundary; a terminal boundary leaves a final empty piece. -/
def splitB : List Char → List (List Char)
  | [] => [[]]
  | [c] => if isLineBoundary c then [[], []] else [[c]]
  | c :: d :: rest =>
    if c = '\r' && d = '\n' then [] :: splitB rest
    else if isLineBoundary c then [] :: splitB (d :: rest)
    else
      match splitB (d :: rest) with
      | [] => [[c]]
      | l :: ls => (c :: l) :: ls

/-- Python entry_content.splitlines(): the empty string has no lines, and
otherwise the string is cut at every boundary, except that a boundary at
the very end does not open a further empty line. -/
def splitlinesPy (s : List Char) : List (List Char) :=
  match s with
  | [] => []
  | _ =>
    if (splitB s).getLast? = some [] then (splitB s).dropLast else splitB s

/-- Python usage.count(" "): the number of space characters. -/
def countSpace : List Char → Nat
  | [] => 0
  | c :: rest => (if c = ' ' then 1 else 0) + countSpace rest

/-- Python usage.count(" <"): the number of positions where a space is
immediately followed by an opening angle bracket. -/
def countReqMark : List Char → Nat
  | [] => 0
  | [_] => 0
  | c :: d :: rest =>
    (if c = ' ' && d = '<' then 1 else 0) + countReqMark (d :: rest)

/-- True when the string contains a line feed character. -/
def hasNewline : List Char → Bool
  | [] => false
  | c :: rest => c = '\n' || hasNewline rest

/-- The test re.fullmatch("/[a-z]+( .*)?", entry_content) that sends input
down the command path: a slash, one or more lowercase letters, then either
the end of the string or a space followed by characters among which Python
dot matches everything except a line feed. -/
def isCommandInput (s : List Char) : Bool :=
  match s with
  | [] => false
  | c :: rest =>
    c = '/' && !(rest.takeWhile isLowerAZ).isEmpty &&
      ((rest.dropWhile isLowerAZ).isEmpty ||
        ((rest.dropWhile isLowerAZ).head? = some ' ' &&
          !hasNewline (rest.dropWhile isLowerAZ)))

/-- The abstract conversation context: the dispatcher only inspects which
View subclass it received and the identity it carries. -/
inductive View where
  | channelView (channel_name : String)
  | pmView (other_nick : String)
  | otherView
deriving DecidableEq, Repr

/-- One call on the IrcCore backend capability surface. -/
inductive BackendCall where
  | send_privmsg (target message : String)
  | join_channel (channel : String)
  | part_channel (channel : String)
  | change_nick (new_nick : String)
  | change_topic (channel topic : String)
  | quit
deriving DecidableEq, Repr

/-- Effects of a handler body or of the plain-text send loop: backend calls
and inline view messages, each in issue order. -/
structure CmdEffects where
  calls : List BackendCall
  messages : List String
deriving DecidableEq, Repr

/-- Everything observable about one handle_command dispatch: the returned
boolean, the backend calls, the inline messages (only the text argument of
add_message is modelled), how many times the multiline confirmation dialog
was opened, and which tokens were looked up in the command registry. -/
structure Outcome where
  handled : Bool
  calls : List BackendCall
  messages : List String
  confirms : Nat
  lookups : List String
deriving DecidableEq, Repr

/-- The inline message _send_privmsg emits when the view has no send target. -/
def notSendableMsg : String :=
  "You can't send messages here. Join a channel instead and send messages there."

/-- The function _send_privmsg: send to the channel or to the other nick,
or explain that this view cannot send. -/
def _send_privmsg (view : View) (message : String) : CmdEffects :=
  match view with
  | .channelView channel_name => ⟨[.send_privmsg channel_name message], []⟩
  | .pmView other_nick => ⟨[.send_privmsg other_nick message], []⟩
  | .otherView => ⟨[], [notSendableMsg]⟩

/-- The function escape_message: prepend a second slash when the message
starts with one. -/
def escape_message (s : String) : String :=
  if s.data.take 1 = ['/'] then "/" ++ s else s

/-- Handler of "/join <channel>". Only the declared-arity shapes are ever
reached, because handle_command checks the arity before invoking. -/
def join (_ : View) (args : List String) : CmdEffects :=
  match args with
  | [channel] => ⟨[.join_channel channel], []⟩
  | _ => ⟨[], []⟩

/-- Handler of "/part [<channel>]". -/
def part (view : View) (args : List String) : CmdEffects :=
  match args with
  | [channel] => ⟨[.part_channel channel], []⟩
  | [] =>
    match view with
    | .channelView channel_name => ⟨[.part_channel channel_name], []⟩
    | _ =>
      ⟨[], ["Usage: /part [<channel>]",
            "Channel is needed unless you are currently on a channel."]⟩
  | _ => ⟨[], []⟩

/-- Handler of "/quit". -/
def quit (_ : View) (args : List String) : CmdEffects :=
  match args with
  | [] => ⟨[.quit], []⟩
  | _ => ⟨[], []⟩

/-- Handler of "/nick <new_nick>". -/
def nick (_ : View) (args : List String) : CmdEffects :=
  match args with
  | [new_nick] => ⟨[.change_nick new_nick], []⟩
  | _ => ⟨[], []⟩

/-- Handler of "/topic <new_topic>". -/
def topic (view : View) (args : List String) : CmdEffects :=
  match args with
  | [new_topic] =>
    match view with
    | .channelView channel_name => ⟨[.change_topic channel_name new_topic], []⟩
    | _ => ⟨[], ["You must be on a channel to change its topic."]⟩
  | _ => ⟨[], []⟩

/-- Handler of "/me <message>". -/
def me (view : View) (args : List String) : CmdEffects :=
  match args with
  | [message] => _send_privmsg view ("\x01ACTION " ++ message ++ "\x01")
  | _ => ⟨[], []⟩

/-- Handler of "/msg <nick> <message>". -/
def msg (_ : View) (args : List String) : CmdEffects :=
  match args with
  | [nickArg, message] => ⟨[.send_privmsg nickArg message], []⟩
  | _ => ⟨[], []⟩

/-- Handler of "/ns <message>" and "/nickserv <message>". -/
def msg_nickserv (view : View) (args : List String) : CmdEffects :=
  match args with
  | [message] => msg view ["NickServ", message]
  | _ => ⟨[], []⟩

/-- Handler of "/ms <message>" and "/memoserv <message>". -/
def msg_memoserv (view : View) (args : List String) : CmdEffects :=
  match args with
  | [message] => msg view ["MemoServ", message]
  | _ => ⟨[], []⟩

/-- The registry _commands after _add_default_commands has run: each entry
is the key (the first token of the usage string), the usage string, and the
handler. -/
def _commands : List (String × String × (View → List String → CmdEffects)) :=
  [("/join", "/join <channel>", join),
   ("/part", "/part [<channel>]", part),
   ("/quit", "/quit", quit),
   ("/nick", "/nick <new_nick>", nick),
   ("/topic", "/topic <new_topic>", topic),
   ("/me", "/me <message>", me),
   ("/msg", "/msg <nick> <message>", msg),
   ("/nickserv", "/nickserv <message>", msg_nickserv),
   ("/ns", "/ns <message>", msg_nickserv),
   ("/memoserv", "/memoserv <message>", msg_memoserv),
   ("/ms", "/ms <message>", msg_memoserv)]

/-- Dictionary lookup _commands[name]. -/
def lookupCmd (name : String) : Option (String × (View → List String → CmdEffects)) :=
  match _commands.find? (fun e => e.1 == name) with
  | some e => some e.2
  | none => none

/-- The argument list of the command path:
entry_content.split(maxsplit=max(usage.count(" "), 1))[1:]. -/
def cmdArgs (ec : List Char) (usage : String) : List (List Char) :=
  (pySplit ec (max (countSpace usage.data) 1)).drop 1

/-- The lines the plain-text path sends: one leading slash is stripped
first when the input starts with two of them. -/
def plainLines (ec : List Char) : List (List Char) :=
  if ec.take 2 = ['/', '/'] then splitlinesPy (ec.drop 1)
  else splitlinesPy ec

/-- The send loop of the plain-text path, one _send_privmsg per line. -/
def sendLines (view : View) : List (List Char) → CmdEffects
  | [] => ⟨[], []⟩
  | l :: ls =>
    let e := _send_privmsg view (String.mk l)
    let r := sendLines view ls
    ⟨e.calls ++ r.calls, e.messages ++ r.messages⟩

/-- The plain-text path after line splitting: ask the multiline question
when more than three lines are about to be sent, then send every line. -/
def plainPath (view : View) (confirmAnswer : Bool) (lines : List (List Char)) : Outcome :=
  if 3 < lines.length then
    if confirmAnswer then
      let e := sendLines view lines
      ⟨true, e.calls, e.messages, 1, []⟩
    else ⟨false, [], [], 1, []⟩
  else
    let e := sendLines view lines
    ⟨true, e.calls, e.messages, 0, []⟩

/-- The function handle_command on the character list of the input;
confirmAnswer is the answer messagebox.askyesno would return if asked. -/
def handleChars (view : View) (confirmAnswer : Bool) (ec : List Char) : Outcome :=
  if ec.isEmpty then ⟨false, [], [], 0, []⟩
  else if isCommandInput ec then
    let token := String.mk (firstTok ec)
    match lookupCmd token with
    | none =>
      ⟨false, [], ["No command named '" ++ token ++ "'"], 0, [token]⟩
    | some (usage, func) =>
      let args := cmdArgs ec usage
      if args.length < countReqMark usage.data || countSpace usage.data < args.length then
        ⟨false, [], ["Usage: " ++ usage], 0, [token]⟩
      else
        let e := func view (args.map String.mk)
        ⟨true, e.calls, e.messages, 0, [token]⟩
  else
    plainPath view confirmAnswer (plainLines ec)

/-- The entry point handle_command(view, core, entry_content). -/
def handle_command (view : View) (confirmAnswer : Bool) (entry_content : String) : Outcome :=
  handleChars view confirmAnswer entry_content.data

/-- Modelled from the words of the specification, for comparison with the
code: the claimed classification pattern, a slash, one or more lowercase
letters, then optionally a whitespace character followed by anything. -/
def specCommandPattern (s : List Char) : Bool :=
  match s with
  | [] => false
  | c :: rest =>
    c = '/' && !(rest.takeWhile isLowerAZ).isEmpty &&
      (match rest.dropWhile isLowerAZ with
       | [] => true
       | a :: _ => isPyWs a)

/-- Python usage.split(" "): cut at every single space, keeping empty
pieces. -/
def splitOnSpace : List Char → List (List Char)
  | [] => [[]]
  | c :: rest =>
    if c = ' ' then [] :: splitOnSpace rest
    else
      match splitOnSpace rest with
      | [] => [[c]]
      | t :: ts => (c :: t) :: ts

/-- Join tokens with single spaces, the inverse of splitOnSpace on lists of
space-free tokens. -/
def joinSpace : List (List Char) → List Char
  | [] => []
  | [t] => t
  | t :: t2 :: ts => t ++ ' ' :: joinSpace (t2 :: ts)

/-- A required parameter token of the usage grammar, the brackets included:
an opening angle bracket, a non-empty identifier, a closing angle bracket. -/
def isReqTok (t : List Char) : Bool :=
  match t with
  | [] => false
  | c :: rest =>
    c = '<' && !(rest.takeWhile isIdentChar).isEmpty &&
      rest.dropWhile isIdentChar = ['>']

/-- An optional parameter token of the usage grammar, the brackets included:
square brackets around a required-style token. -/
def isOptTok (t : List Char) : Bool :=
  match t with
  | [] => false
  | [_] => false
  | c :: d :: rest =>
    c = '[' && d = '<' && !(rest.takeWhile isIdentChar).isEmpty &&
      rest.dropWhile isIdentChar = ['>', ']']

def allOptToks : List (List Char) → Bool
  | [] => true
  | t :: ts => isOptTok t && allOptToks ts

/-- Zero or more required tokens followed by zero or more optional tokens. -/
def reqThenOpt : List (List Char) → Bool
  | [] => true
  | t :: ts => if isReqTok t then reqThenOpt ts else allOptToks (t :: ts)

/-- The command-name token of the usage grammar: a slash and one or more
lowercase letters. -/
def cmdNameTok (t : List Char) : Bool :=
  match t with
  | [] => false
  | c :: rest => c = '/' && !rest.isEmpty && rest.all isLowerAZ

/-- The assertion of add_command,
re.fullmatch of the raw pattern /[a-z]+( <[a-z_]+>)*( \[<[a-z_]+>\])*:
since every token of the pattern is space-free and the separators are
single spaces, the match is equivalent to cutting at each space and
checking the pieces in order. -/
def validUsage (u : List Char) : Bool :=
  match splitOnSpace u with
  | [] => false
  | t :: ts => cmdNameTok t && reqThenOpt ts

/-- The registration gate of add_command: a usage string may be registered
exactly when its assertion holds. -/
def add_command (usage : String) : Bool :=
  validUsage usage.data

/-- The spelling of a required parameter token with the given identifier. -/
def reqTokChars (id : List Char) : List Char :=
  '<' :: id ++ ['>']

/-- The spelling of an optional parameter token with the given identifier. -/
def optTokChars (id : List Char) : List Char :=
  '[' :: '<' :: id ++ ['>', ']']

/-- The usage string assembled from a command name, the identifiers of the
required parameters and the identifiers of the optional parameters, in the
grammatical order with the required ones first. -/
def mkUsage (name : List Char) (reqs opts : List (List Char)) : List Char :=
  joinSpace (('/' :: name) :: (reqs.map reqTokChars ++ opts.map optTokChars))

/-- A well-formed parameter identifier: non-empty, over lowercase letters
and underscores. -/
def goodIdent (id : List Char) : Prop :=
  id ≠ [] ∧ id.all isIdentChar = true

instance (id : List Char) : Decidable (goodIdent id) :=
  inferInstanceAs (Decidable (_ ∧ _))

/-- The declarative usage grammar of the specification: a slash and a
lowercase name, then required parameter tokens, then optional parameter
tokens, never a required one after an optional one. -/
def usageGrammar (u : List Char) : Prop :=
  ∃ name reqs opts,
    u = mkUsage name reqs opts ∧ name ≠ [] ∧ name.all isLowerAZ = true ∧
      (∀ id ∈ reqs, goodIdent id) ∧ (∀ id ∈ opts, goodIdent id)

/-- A usage string with at least one required parameter token placed after
at least one optional parameter token. -/
def mkUsageBad (name : List Char) (reqs opts lateReqs : List (List Char)) : List Char :=
  joinSpace
    (('/' :: name) ::
      (reqs.map reqTokChars ++ opts.map optTokChars ++ lateReqs.map reqTokChars))

theorem mk_data (s : String) : String.mk s.data = s := rfl

theorem sendLines_channel (c : String) (L : List (List Char)) :
    sendLines (View.channelView c) L =
      ⟨L.map (fun l => BackendCall.send_privmsg c (String.mk l)), []⟩ := by
  induction L with
  | nil => rfl
  | cons l ls ih => simp [sendLines, _send_privmsg, ih]

theorem sendLines_pm (n : String) (L : List (List Char)) :
    sendLines (View.pmView n) L =
      ⟨L.map (fun l => BackendCall.send_privmsg n (String.mk l)), []⟩ := by
  induction L with
  | nil => rfl
  | cons l ls ih => simp [sendLines, _send_privmsg, ih]

theorem sendLines_other (L : List (List Char)) :
    sendLines View.otherView L = ⟨[], List.replicate L.length notSendableMsg⟩ := by
  induction L with
  | nil => rfl
  | cons l ls ih => simp [sendLines, _send_privmsg, ih, List.replicate_succ]

theorem handleChars_plain (v : View) (conf : Bool) (ec : List Char)
    (h1 : ec ≠ []) (h2 : isCommandInput ec = false) :
    handleChars v conf ec = plainPath v conf (plainLines ec) := by
  have he : ec.isEmpty = false := by
    cases ec with
    | nil => exact absurd rfl h1
    | cons a l => rfl
  simp [handleChars, he, h2]

theorem plainPath_lookups (v : View) (conf : Bool) (L : List (List Char)) :
    (plainPath v conf L).lookups = [] := by
  unfold plainPath
  split
  · split <;> rfl
  · rfl

/-- C1, counterexample. The claim says that a plain-text input dispatched in
a context with no send target makes handle return false and emits the
not-sendable message once; on the two-line input "a\nb" the code instead
returns true and emits the message twice (and issues no send either way). -/
theorem C1_counterexample :
    (handle_command View.otherView true "a\nb").handled = true ∧
    (handle_command View.otherView true "a\nb").calls = [] ∧
    (handle_command View.otherView true "a\nb").messages =
      [notSendableMsg, notSendableMsg] :=
  ⟨rfl, rfl, rfl⟩

/-- C1, amended. For every plain-text input dispatched in a context with no
send target, provided the input does not both exceed three lines and get
declined, handle returns true, issues zero send calls, and emits the inline
not-sendable message once per line of the input. -/
theorem C1_amended (s : String) (conf : Bool) (h1 : s.data ≠ [])
    (h2 : isCommandInput s.data = false)
    (h3 : (plainLines s.data).length ≤ 3 ∨ conf = true) :
    (handle_command View.otherView conf s).handled = true ∧
    (handle_command View.otherView conf s).calls = [] ∧
    (handle_command View.otherView conf s).messages =
      List.replicate (plainLines s.data).length notSendableMsg := by
  have h := handleChars_plain View.otherView conf s.data h1 h2
  unfold handle_command
  rw [h]
  unfold plainPath
  by_cases hl : 3 < (plainLines s.data).length
  · have hc : conf = true := by
      rcases h3 with h3 | h3
      · omega
      · exact h3
    rw [if_pos hl, hc]
    simp [sendLines_other]
  · rw [if_neg hl]
    simp [sendLines_other]

/-- C1, witness for the amended theorem at the input of the claim. -/
theorem C1_witness :
    ("hi there".data ≠ [] ∧ isCommandInput "hi there".data = false ∧
      ((plainLines "hi there".data).length ≤ 3 ∨ true = true)) ∧
    ((handle_command View.otherView true "hi there").handled = true ∧
      (handle_command View.otherView true "hi there").calls = [] ∧
      (handle_command View.otherView true "hi there").messages =
        List.replicate (plainLines "hi there".data).length notSendableMsg) :=
  ⟨⟨by decide, by decide, by decide⟩,
    C1_amended "hi there" true (by decide) (by decide) (by decide)⟩

/-- C3, counterexample. The claim says that whenever a plain-text input has
at most three lines, one send is issued per line; in a context with no
send target the code sends nothing while still returning true. -/
theorem C3_counterexample :
    (handle_command View.otherView true "x").handled = true ∧
    (handle_command View.otherView true "x").calls = [] ∧
    (plainLines "x".data).length = 1 ∧
    (handle_command View.otherView true "x").confirms = 0 :=
  ⟨rfl, rfl, rfl, rfl⟩

/-- C3, amended. For every plain-text input, the confirmation gate is
invoked exactly once if the input splits into more than three lines and
never otherwise; if the user declines, handle returns false with zero
sends (and zero messages); if the user accepts or the input has at most
three lines, handle returns true, and in a channel or direct-message
context one send is issued per line in original input order. -/
theorem C3_amended (v : View) (conf : Bool) (s : String) (h1 : s.data ≠ [])
    (h2 : isCommandInput s.data = false) :
    ((handle_command v conf s).confirms =
      if 3 < (plainLines s.data).length then 1 else 0) ∧
    (conf = false → 3 < (plainLines s.data).length →
      handle_command v conf s = ⟨false, [], [], 1, []⟩) ∧
    ((conf = true ∨ (plainLines s.data).length ≤ 3) →
      (handle_command v conf s).handled = true ∧
      (∀ cn, v = View.channelView cn →
        (handle_command v conf s).calls =
          (plainLines s.data).map (fun l => BackendCall.send_privmsg cn (String.mk l))) ∧
      (∀ pn, v = View.pmView pn →
        (handle_command v conf s).calls =
          (plainLines s.data).map (fun l => BackendCall.send_privmsg pn (String.mk l)))) := by
  have h := handleChars_plain v conf s.data h1 h2
  unfold handle_command
  rw [h]
  unfold plainPath
  by_cases hl : 3 < (plainLines s.data).length
  · rw [if_pos hl]
    cases conf with
    | false =>
      refine ⟨?_, ?_, ?_⟩
      · simp [hl]
      · intro _ _
        rfl
      · rintro (hc | hc)
        · exact absurd hc (by simp)
        · omega
    | true =>
      refine ⟨?_, ?_, ?_⟩
      · simp [hl]
      · intro hc
        exact absurd hc (by simp)
      · intro _
        refine ⟨rfl, ?_, ?_⟩
        · rintro cn rfl
          simp [sendLines_channel]
        · rintro pn rfl
          simp [sendLines_pm]
  · rw [if_neg hl]
    refine ⟨?_, ?_, ?_⟩
    · simp [hl]
    · intro _ hx
      exact absurd hx hl
    · intro _
      refine ⟨rfl, ?_, ?_⟩
      · rintro cn rfl
        simp [sendLines_channel]
      · rintro pn rfl
        simp [sendLines_pm]

/-- C3, witness for the amended theorem on a four-line accepted input. -/
theorem C3_witness :
    ("a\nb\nc\nd".data ≠ [] ∧ isCommandInput "a\nb\nc\nd".data = false) ∧
    ((handle_command (View.channelView "#x") true "a\nb\nc\nd").confirms =
      if 3 < (plainLines "a\nb\nc\nd".data).length then 1 else 0) ∧
    (true = false → 3 < (plainLines "a\nb\nc\nd".data).length →
      handle_command (View.channelView "#x") true "a\nb\nc\nd" = ⟨false, [], [], 1, []⟩) ∧
    ((true = true ∨ (plainLines "a\nb\nc\nd".data).length ≤ 3) →
      (handle_command (View.channelView "#x") true "a\nb\nc\nd").handled = true ∧
      (∀ cn, View.channelView "#x" = View.channelView cn →
        (handle_command (View.channelView "#x") true "a\nb\nc\nd").calls =
          (plainLines "a\nb\nc\nd".data).map
            (fun l => BackendCall.send_privmsg cn (String.mk l))) ∧
      (∀ pn, View.channelView "#x" = View.pmView pn →
        (handle_command (View.channelView "#x") true "a\nb\nc\nd").calls =
          (plainLines "a\nb\nc\nd".data).map
            (fun l => BackendCall.send_privmsg pn (String.mk l)))) := by
  refine ⟨⟨by decide, by decide⟩, ?_⟩
  have h := C3_amended (View.channelView "#x") true "a\nb\nc\nd" (by decide) (by decide)
  exact ⟨h.1, h.2.1, h.2.2⟩

theorem mem_takeWhile (p : Char → Bool) (l : List Char) :
    ∀ a ∈ l.takeWhile p, p a = true := by
  induction l with
  | nil => intro a ha; simp [List.takeWhile] at ha
  | cons c r ih =>
    intro a ha
    rw [List.takeWhile_cons] at ha
    by_cases hc : p c = true
    · rw [if_pos hc] at ha
      rcases List.mem_cons.mp ha with rfl | ha
      · exact hc
      · exact ih a ha
    · rw [if_neg hc] at ha
      simp at ha

theorem takeWhile_all (p : Char → Bool) (l : List Char)
    (hall : ∀ c ∈ l, p c = true) :
    l.takeWhile p = l ∧ l.dropWhile p = [] := by
  induction l with
  | nil => exact ⟨rfl, rfl⟩
  | cons c r ih =>
    have hc := hall c (by simp)
    have ih2 := ih (fun x hx => hall x (by simp [hx]))
    rw [List.takeWhile_cons, List.dropWhile_cons]
    simp [hc, ih2.1, ih2.2]

theorem takeWhile_append_stop (p : Char → Bool) (l : List Char) (b : Char)
    (t : List Char) (hall : ∀ c ∈ l, p c = true) (hb : p b = false) :
    (l ++ b :: t).takeWhile p = l ∧ (l ++ b :: t).dropWhile p = b :: t := by
  induction l with
  | nil =>
    rw [List.nil_append, List.takeWhile_cons, List.dropWhile_cons]
    simp [hb]
  | cons c r ih =>
    have hc := hall c (by simp)
    have ih2 := ih (fun x hx => hall x (by simp [hx]))
    rw [List.cons_append, List.takeWhile_cons, List.dropWhile_cons]
    simp [hc, ih2.1, ih2.2]

theorem isCommandInput_iff (s : List Char) :
    isCommandInput s = true ↔
    ∃ ls t, s = '/' :: ls ++ t ∧ ls ≠ [] ∧ (∀ c ∈ ls, isLowerAZ c = true) ∧
      (t = [] ∨ ∃ u, t = ' ' :: u ∧ hasNewline u = false) := by
  constructor
  · intro h
    cases s with
    | nil => simp [isCommandInput] at h
    | cons c rest =>
      simp only [isCommandInput, Bool.and_eq_true, Bool.or_eq_true,
        decide_eq_true_eq, Bool.not_eq_eq_eq_not, Bool.not_true,
        List.isEmpty_eq_false] at h
      obtain ⟨⟨hc, hne⟩, hafter⟩ := h
      refine ⟨rest.takeWhile isLowerAZ, rest.dropWhile isLowerAZ,
        by rw [hc, List.cons_append, List.takeWhile_append_dropWhile], hne,
        mem_takeWhile isLowerAZ rest, ?_⟩
      rcases hafter with hafter | hafter
      · left
        exact List.isEmpty_iff.mp hafter
      · obtain ⟨hhead, hnl⟩ := hafter
        right
        cases hd : rest.dropWhile isLowerAZ with
        | nil => rw [hd] at hhead; simp at hhead
        | cons a u =>
          rw [hd] at hhead hnl
          simp only [List.head?_cons, Option.some.injEq] at hhead
          simp only [hasNewline, hhead, Bool.or_eq_false_iff,
            decide_eq_false_iff_not] at hnl
          exact ⟨u, by rw [hhead], hnl.2⟩
  · rintro ⟨ls, t, rfl, hne, hall, ht⟩
    have hie : ls.isEmpty = false := List.isEmpty_eq_false.mpr hne
    rcases ht with rfl | ⟨u, rfl, hnl⟩
    · have h2 := takeWhile_all isLowerAZ ls hall
      simp [isCommandInput, List.cons_append, List.append_nil, h2.1, h2.2, hie]
    · have h2 := takeWhile_append_stop isLowerAZ ls ' ' u hall (by decide)
      simp [isCommandInput, List.cons_append, h2.1, h2.2, hie, hasNewline, hnl]

theorem handleChars_lookups (v : View) (conf : Bool) (ec : List Char)
    (h1 : ec ≠ []) :
    (handleChars v conf ec).lookups ≠ [] ↔ isCommandInput ec = true := by
  have he : ec.isEmpty = false := by
    cases ec with
    | nil => exact absurd rfl h1
    | cons a l => rfl
  cases hcc : isCommandInput ec with
  | true =>
    simp only [handleChars, he, Bool.false_eq_true, if_false, hcc, if_true]
    cases hlk : lookupCmd (String.mk (firstTok ec)) with
    | none => simp
    | some e =>
      obtain ⟨usage, func⟩ := e
      by_cases ha : (cmdArgs ec usage).length < countReqMark usage.data ||
          countSpace usage.data < (cmdArgs ec usage).length
      · simp [ha]
      · simp [ha]
  | false =>
    rw [handleChars_plain v conf ec h1 hcc, plainPath_lookups]
    simp

/-- C2, counterexample. The claimed classification pattern allows any
whitespace character after the letters and any text after it, while the
code requires a literal space and refuses a line feed in the remainder: on
the inputs with a tab and with a line feed the claimed pattern matches but
the dispatcher attempts no registry lookup and treats the input as plain
text. -/
theorem C2_counterexample :
    specCommandPattern "/join\tx".data = true ∧
    (handle_command (View.channelView "#x") true "/join\tx").lookups = [] ∧
    (handle_command (View.channelView "#x") true "/join\tx").calls =
      [BackendCall.send_privmsg "#x" "/join\tx"] ∧
    specCommandPattern "/join \nx".data = true ∧
    (handle_command (View.channelView "#x") true "/join \nx").lookups = [] := by
  refine ⟨by decide, rfl, rfl, by decide, rfl⟩

/-- C2, amended. For every non-empty input, handle takes the command path,
attempting a registry lookup, if and only if the input is a slash, one or
more lowercase letters, and then either nothing or a literal space followed
by characters among which there is no line feed; every other non-empty
input takes the plain-text path. -/
theorem C2_amended (v : View) (conf : Bool) (s : String) (h : s.data ≠ []) :
    ((handle_command v conf s).lookups ≠ [] ↔
      ∃ ls t, s.data = '/' :: ls ++ t ∧ ls ≠ [] ∧
        (∀ c ∈ ls, isLowerAZ c = true) ∧
        (t = [] ∨ ∃ u, t = ' ' :: u ∧ hasNewline u = false)) ∧
    ((handle_command v conf s).lookups = [] →
      handle_command v conf s = plainPath v conf (plainLines s.data)) := by
  constructor
  · exact (handleChars_lookups v conf s.data h).trans (isCommandInput_iff s.data)
  · intro hlk
    have hcc : isCommandInput s.data = false := by
      cases hcc : isCommandInput s.data with
      | true => exact absurd hlk ((handleChars_lookups v conf s.data h).mpr hcc)
      | false => rfl
    exact handleChars_plain v conf s.data h hcc

/-- C2, witness for the amended theorem at a command input. -/
theorem C2_witness :
    ("/join x".data ≠ []) ∧
    (((handle_command (View.channelView "#c") true "/join x").lookups ≠ [] ↔
      ∃ ls t, "/join x".data = '/' :: ls ++ t ∧ ls ≠ [] ∧
        (∀ c ∈ ls, isLowerAZ c = true) ∧
        (t = [] ∨ ∃ u, t = ' ' :: u ∧ hasNewline u = false)) ∧
    ((handle_command (View.channelView "#c") true "/join x").lookups = [] →
      handle_command (View.channelView "#c") true "/join x" =
        plainPath (View.channelView "#c") true (plainLines "/join x".data))) :=
  ⟨by decide, C2_amended (View.channelView "#c") true "/join x" (by decide)⟩

/-- C6. For every input starting with two consecutive slashes, exactly one
leading slash is stripped before the plain-text path proceeds, and the
input is never subjected to command lookup. -/
theorem C6 (v : View) (conf : Bool) (s : String)
    (h : s.data.take 2 = ['/', '/']) :
    (handle_command v conf s).lookups = [] ∧
    handle_command v conf s = plainPath v conf (splitlinesPy (s.data.drop 1)) := by
  obtain ⟨r, hr⟩ : ∃ r, s.data = '/' :: '/' :: r := by
    cases hd : s.data with
    | nil => rw [hd] at h; exact absurd h (by decide)
    | cons a l =>
      cases hl : l with
      | nil =>
        rw [hd, hl] at h
        have h2 : [a] = ['/', '/'] := h
        simp at h2
      | cons b r =>
        rw [hd, hl] at h
        have h2 : [a, b] = ['/', '/'] := h
        simp only [List.cons.injEq, and_true] at h2
        exact ⟨r, by rw [h2.1, h2.2]⟩
  have hsl : isLowerAZ '/' = false := by decide
  have hcc : isCommandInput s.data = false := by
    rw [hr]
    simp [isCommandInput, List.takeWhile_cons, hsl]
  have h1 : s.data ≠ [] := by rw [hr]; simp
  have hp := handleChars_plain v conf s.data h1 hcc
  have hpl : plainLines s.data = splitlinesPy (s.data.drop 1) := by
    unfold plainLines
    rw [if_pos h]
  constructor
  · show (handleChars v conf s.data).lookups = []
    rw [hp]
    exact plainPath_lookups v conf _
  · show handleChars v conf s.data = _
    rw [hp, hpl]

/-- C6, witness: the escaped literal input of the claim is sent as plain
text with the first slash removed. -/
theorem C6_witness :
    ("//like this".data.take 2 = ['/', '/']) ∧
    ((handle_command (View.channelView "#x") true "//like this").lookups = [] ∧
      handle_command (View.channelView "#x") true "//like this" =
        plainPath (View.channelView "#x") true
          (splitlinesPy ("//like this".data.drop 1))) ∧
    (handle_command (View.channelView "#x") true "//like this").calls =
      [BackendCall.send_privmsg "#x" "/like this"] :=
  ⟨by decide, C6 (View.channelView "#x") true "//like this" (by decide), rfl⟩

/-- C7. For every input on the command path whose first token is not a
registered command name, handle emits exactly the inline error naming the
token, returns false, and issues zero backend calls; the token starts with
its leading slash as typed. -/
theorem C7 (v : View) (conf : Bool) (s : String)
    (hc : isCommandInput s.data = true)
    (hn : lookupCmd (String.mk (firstTok s.data)) = none) :
    handle_command v conf s =
      ⟨false, [],
        ["No command named '" ++ String.mk (firstTok s.data) ++ "'"], 0,
        [String.mk (firstTok s.data)]⟩ ∧
    (firstTok s.data).take 1 = ['/'] := by
  have h1 : s.data ≠ [] := by
    intro hx
    rw [hx] at hc
    exact absurd hc (by decide)
  have he : s.data.isEmpty = false := List.isEmpty_eq_false.mpr h1
  constructor
  · unfold handle_command handleChars
    simp only [he, Bool.false_eq_true, if_false, hc, if_true, hn]
  · obtain ⟨ls, t, hs, hne, hall, ht⟩ := (isCommandInput_iff s.data).mp hc
    have hws : isPyWs '/' = false := by decide
    rw [hs, List.cons_append]
    unfold firstTok
    rw [show dropWs ('/' :: (ls ++ t)) = '/' :: (ls ++ t) from by
      simp [dropWs, hws]]
    rw [show takeTok ('/' :: (ls ++ t)) =
        ('/' :: (takeTok (ls ++ t)).1, (takeTok (ls ++ t)).2) from by
      simp [takeTok, hws]]
    rfl

/-- C7, witness at the unknown command of the claim. -/
theorem C7_witness :
    (isCommandInput "/bogus".data = true ∧
      lookupCmd (String.mk (firstTok "/bogus".data)) = none) ∧
    (handle_command View.otherView true "/bogus" =
      ⟨false, [],
        ["No command named '" ++ String.mk (firstTok "/bogus".data) ++ "'"], 0,
        [String.mk (firstTok "/bogus".data)]⟩ ∧
      (firstTok "/bogus".data).take 1 = ['/']) :=
  ⟨⟨by decide, rfl⟩, C7 View.otherView true "/bogus" (by decide) rfl⟩

/-- C4. On the command path with a registered command, when the number of
arguments obtained is below the required count or above the declared
count, handle emits exactly the inline usage message, returns false, and
invokes no handler, so there are zero backend calls. For every usage
string in the registry, usage.count of the marker for a required
parameter equals the number of required parameters, and usage.count of
the space equals the number of declared parameters. -/
theorem C4 (v : View) (conf : Bool) (s : String) (usage : String)
    (func : View → List String → CmdEffects)
    (hc : isCommandInput s.data = true)
    (hl : lookupCmd (String.mk (firstTok s.data)) = some (usage, func))
    (ha : (cmdArgs s.data usage).length < countReqMark usage.data ∨
      countSpace usage.data < (cmdArgs s.data usage).length) :
    handle_command v conf s =
      ⟨false, [], ["Usage: " ++ usage], 0, [String.mk (firstTok s.data)]⟩ := by
  have h1 : s.data ≠ [] := by
    intro hx
    rw [hx] at hc
    exact absurd hc (by decide)
  have he : s.data.isEmpty = false := List.isEmpty_eq_false.mpr h1
  have hb : (decide ((cmdArgs s.data usage).length < countReqMark usage.data) ||
      decide (countSpace usage.data < (cmdArgs s.data usage).length)) = true := by
    rcases ha with ha | ha
    · rw [decide_eq_true ha]
      simp
    · rw [decide_eq_true ha]
      simp
  unfold handle_command handleChars
  simp only [he, Bool.false_eq_true, if_false, hc, if_true, hl, hb]

/-- C4, witness: a missing required argument of the join command. -/
theorem C4_witness :
    (isCommandInput "/join".data = true ∧
      lookupCmd (String.mk (firstTok "/join".data)) =
        some ("/join <channel>", join) ∧
      ((cmdArgs "/join".data "/join <channel>").length <
          countReqMark "/join <channel>".data ∨
        countSpace "/join <channel>".data <
          (cmdArgs "/join".data "/join <channel>").length)) ∧
    handle_command View.otherView true "/join" =
      ⟨false, [], ["Usage: /join <channel>"], 0,
        [String.mk (firstTok "/join".data)]⟩ :=
  ⟨⟨by decide, rfl, Or.inl (by decide)⟩,
    C4 View.otherView true "/join" "/join <channel>" join (by decide) rfl
      (Or.inl (by decide))⟩

theorem pySplitGo_length (n : Nat) :
    ∀ s : List Char, (pySplitGo n s).length ≤ n + 1 := by
  induction n with
  | zero =>
    intro s
    cases s <;> simp [pySplitGo]
  | succ m ih =>
    intro s
    cases s with
    | nil => simp [pySplitGo]
    | cons c rest =>
      simp only [pySplitGo, List.length_cons]
      exact Nat.succ_le_succ (ih _)

/-- C5, counterexample. The claim says the argument text is split into at
most as many pieces as there are declared parameters; the quit command
declares none, yet the input with trailing text yields one argument piece,
because the code clamps the maxsplit bound to at least one. -/
theorem C5_counterexample :
    countSpace "/quit".data = 0 ∧
    (cmdArgs "/quit a b".data "/quit").length = 1 ∧
    handle_command (View.channelView "#x") true "/quit a b" =
      ⟨false, [], ["Usage: /quit"], 0, ["/quit"]⟩ :=
  ⟨rfl, rfl, rfl⟩

/-- C5, amended. The argument text is split into at most
max(number of declared parameters, 1) pieces, the last piece absorbing all
remaining text including embedded spaces; dispatching the topic command
with a two-word remainder in a channel context binds the full remainder as
the single argument and issues exactly one change-topic backend call,
returning true. -/
theorem C5_amended :
    (∀ (ec : List Char) (usage : String),
      (cmdArgs ec usage).length ≤ max (countSpace usage.data) 1) ∧
    handle_command (View.channelView "#x") true "/topic hello world" =
      ⟨true, [BackendCall.change_topic "#x" "hello world"], [], 0, ["/topic"]⟩ := by
  constructor
  · intro ec usage
    have h := pySplitGo_length (max (countSpace usage.data) 1) (dropWs ec)
    unfold cmdArgs pySplit
    rw [List.length_drop]
    omega
  · rfl

theorem lower_not_ws (c : Char) (h : isLowerAZ c = true) : isPyWs c = false := by
  cases hw : isPyWs c with
  | false => rfl
  | true =>
    exfalso
    have hmem : c ∈ pyWsChars := by
      unfold isPyWs at hw
      exact List.mem_of_elem_eq_true hw
    have hall : pyWsChars.all (fun x => !isLowerAZ x) = true := by decide
    have hx := List.all_eq_true.mp hall c hmem
    rw [h] at hx
    exact absurd hx (by decide)

theorem takeTok_append (l : List Char) (u : List Char)
    (hall : ∀ c ∈ l, isPyWs c = false) :
    takeTok (l ++ ' ' :: u) = (l, ' ' :: u) := by
  induction l with
  | nil => simp [takeTok, show isPyWs ' ' = true from by decide]
  | cons c r ih =>
    have hc := hall c (by simp)
    have ih2 := ih (fun x hx => hall x (by simp [hx]))
    simp [takeTok, hc, ih2]

theorem dropWs_cons_ws (c : Char) (u : List Char) (h : isPyWs c = true) :
    dropWs (c :: u) = dropWs u := by
  simp [dropWs, h]

theorem dropWs_cons_nows (c : Char) (u : List Char) (h : isPyWs c = false) :
    dropWs (c :: u) = c :: u := by
  simp [dropWs, h]

theorem hasNewline_append (a b : List Char) :
    hasNewline (a ++ b) = (hasNewline a || hasNewline b) := by
  induction a with
  | nil => rfl
  | cons c r ih => simp [hasNewline, ih, Bool.or_assoc]

theorem pySplitGo_zero (u : List Char) (h : u ≠ []) : pySplitGo 0 u = [u] := by
  cases u with
  | nil => exact absurd rfl h
  | cons c r => rfl

theorem handle_one_arg (v : View) (conf : Bool) (ls : List Char) (m : String)
    (usage : String) (f : View → List String → CmdEffects)
    (hne : ls ≠ []) (hlow : ∀ c ∈ ls, isLowerAZ c = true)
    (hnl : hasNewline m.data = false) (hws : dropWs m.data ≠ [])
    (hlook : lookupCmd (String.mk ('/' :: ls)) = some (usage, f))
    (hcs : countSpace usage.data = 1) (hcr : countReqMark usage.data = 1) :
    handleChars v conf ('/' :: ls ++ ' ' :: m.data) =
      ⟨true, (f v [String.mk (dropWs m.data)]).calls,
        (f v [String.mk (dropWs m.data)]).messages, 0, [String.mk ('/' :: ls)]⟩ := by
  have hnws : ∀ c ∈ '/' :: ls, isPyWs c = false := by
    intro c hc
    rcases List.mem_cons.mp hc with rfl | hc
    · decide
    · exact lower_not_ws c (hlow c hc)
  have hcmd : isCommandInput ('/' :: ls ++ ' ' :: m.data) = true :=
    (isCommandInput_iff _).mpr ⟨ls, ' ' :: m.data, rfl, hne, hlow,
      Or.inr ⟨m.data, rfl, hnl⟩⟩
  have hdw : dropWs ('/' :: ls ++ ' ' :: m.data) = '/' :: ls ++ ' ' :: m.data := by
    rw [List.cons_append]
    exact dropWs_cons_nows '/' _ (by decide)
  have htt : takeTok ('/' :: ls ++ ' ' :: m.data) = ('/' :: ls, ' ' :: m.data) :=
    takeTok_append ('/' :: ls) m.data hnws
  have hft : firstTok ('/' :: ls ++ ' ' :: m.data) = '/' :: ls := by
    unfold firstTok
    rw [hdw, htt]
  have hie : ('/' :: ls ++ ' ' :: m.data).isEmpty = false := by
    rw [List.cons_append]
    rfl
  have hargs : cmdArgs ('/' :: ls ++ ' ' :: m.data) usage = [dropWs m.data] := by
    unfold cmdArgs pySplit
    rw [hcs, hdw]
    have hmax : max 1 1 = 1 := rfl
    rw [hmax]
    rw [show ('/' :: ls ++ ' ' :: m.data) = '/' :: (ls ++ ' ' :: m.data) from
      List.cons_append '/' ls (' ' :: m.data)]
    simp only [pySplitGo]
    rw [← List.cons_append, htt]
    rw [dropWs_cons_ws ' ' m.data (by decide), pySplitGo_zero (dropWs m.data) hws]
    rfl
  unfold handleChars
  simp only [hie, Bool.false_eq_true, if_false, hcmd, if_true, hft, hlook, hargs,
    hcs, hcr]
  rfl

theorem handle_two_arg (v : View) (conf : Bool) (ls t2 : List Char) (m : String)
    (usage : String) (f : View → List String → CmdEffects)
    (hne : ls ≠ []) (hlow : ∀ c ∈ ls, isLowerAZ c = true)
    (ht2ne : t2 ≠ []) (ht2ws : ∀ c ∈ t2, isPyWs c = false)
    (ht2nl : hasNewline t2 = false)
    (hnl : hasNewline m.data = false) (hws : dropWs m.data ≠ [])
    (hlook : lookupCmd (String.mk ('/' :: ls)) = some (usage, f))
    (hcs : countSpace usage.data = 2) (hcr : countReqMark usage.data = 2) :
    handleChars v conf ('/' :: ls ++ ' ' :: (t2 ++ ' ' :: m.data)) =
      ⟨true, (f v [String.mk t2, String.mk (dropWs m.data)]).calls,
        (f v [String.mk t2, String.mk (dropWs m.data)]).messages, 0,
        [String.mk ('/' :: ls)]⟩ := by
  have hnws : ∀ c ∈ '/' :: ls, isPyWs c = false := by
    intro c hc
    rcases List.mem_cons.mp hc with rfl | hc
    · decide
    · exact lower_not_ws c (hlow c hc)
  have hrestnl : hasNewline (t2 ++ ' ' :: m.data) = false := by
    rw [hasNewline_append, ht2nl]
    simp [hasNewline, hnl]
  have hcmd : isCommandInput ('/' :: ls ++ ' ' :: (t2 ++ ' ' :: m.data)) = true :=
    (isCommandInput_iff _).mpr ⟨ls, ' ' :: (t2 ++ ' ' :: m.data), rfl, hne, hlow,
      Or.inr ⟨t2 ++ ' ' :: m.data, rfl, hrestnl⟩⟩
  have hdw : dropWs ('/' :: ls ++ ' ' :: (t2 ++ ' ' :: m.data)) =
      '/' :: ls ++ ' ' :: (t2 ++ ' ' :: m.data) := by
    rw [List.cons_append]
    exact dropWs_cons_nows '/' _ (by decide)
  have htt : takeTok ('/' :: ls ++ ' ' :: (t2 ++ ' ' :: m.data)) =
      ('/' :: ls, ' ' :: (t2 ++ ' ' :: m.data)) :=
    takeTok_append ('/' :: ls) (t2 ++ ' ' :: m.data) hnws
  have hft : firstTok ('/' :: ls ++ ' ' :: (t2 ++ ' ' :: m.data)) = '/' :: ls := by
    unfold firstTok
    rw [hdw, htt]
  have hie : ('/' :: ls ++ ' ' :: (t2 ++ ' ' :: m.data)).isEmpty = false := by
    rw [List.cons_append]
    rfl
  have hdwrest : dropWs (t2 ++ ' ' :: m.data) = t2 ++ ' ' :: m.data := by
    cases t2 with
    | nil => exact absurd rfl ht2ne
    | cons c r =>
      rw [List.cons_append]
      exact dropWs_cons_nows c _ (ht2ws c (by simp))
  have htt2 : takeTok (t2 ++ ' ' :: m.data) = (t2, ' ' :: m.data) :=
    takeTok_append t2 m.data ht2ws
  have hargs : cmdArgs ('/' :: ls ++ ' ' :: (t2 ++ ' ' :: m.data)) usage =
      [t2, dropWs m.data] := by
    unfold cmdArgs pySplit
    rw [hcs, hdw]
    have hmax : max 2 1 = 2 := rfl
    rw [hmax]
    rw [show ('/' :: ls ++ ' ' :: (t2 ++ ' ' :: m.data)) =
        '/' :: (ls ++ ' ' :: (t2 ++ ' ' :: m.data)) from
      List.cons_append '/' ls (' ' :: (t2 ++ ' ' :: m.data))]
    simp only [pySplitGo]
    rw [← List.cons_append, htt]
    rw [dropWs_cons_ws ' ' _ (by decide), hdwrest]
    cases ht : t2 with
    | nil => exact absurd ht ht2ne
    | cons c r =>
      rw [List.cons_append]
      simp only [pySplitGo]
      rw [← List.cons_append, ← ht, htt2]
      rw [dropWs_cons_ws ' ' m.data (by decide), pySplitGo_zero (dropWs m.data) hws]
      rfl
  unfold handleChars
  simp only [hie, Bool.false_eq_true, if_false, hcmd, if_true, hft, hlook, hargs,
    hcs, hcr]
  rfl

/-- C9, counterexample. For a message with leading whitespace, the
maxsplit-bounded split consumes the whitespace run after the command name,
so the message bound and sent is the remainder with its leading whitespace
removed, not the appended message verbatim as the claim states. -/
theorem C9_counterexample :
    (handle_command (View.channelView "#x") true ("/ns " ++ " hi")).calls =
      [BackendCall.send_privmsg "NickServ" "hi"] ∧
    (handle_command (View.channelView "#x") true ("/msg NickServ " ++ " hi")).calls =
      [BackendCall.send_privmsg "NickServ" "hi"] ∧
    (handle_command (View.channelView "#x") true ("/ns " ++ " hi")).calls ≠
      [BackendCall.send_privmsg "NickServ" " hi"] := by
  refine ⟨rfl, rfl, by decide⟩

/-- C9, amended. For every message that is non-empty, contains no line
feed, and does not consist solely of whitespace, dispatching it through
the ns or nickserv alias produces exactly the same backend effects as
dispatching it through msg with the fixed identity NickServ, namely a
single send of the message stripped of its leading whitespace, returning
true; likewise ms and memoserv with the fixed identity MemoServ. -/
theorem C9_amended (m : String) (h1 : m.data ≠ [])
    (h2 : hasNewline m.data = false) (h3 : dropWs m.data ≠ [])
    (v : View) (conf : Bool) :
    handle_command v conf ("/ns " ++ m) =
      ⟨true, [BackendCall.send_privmsg "NickServ" (String.mk (dropWs m.data))],
        [], 0, ["/ns"]⟩ ∧
    handle_command v conf ("/nickserv " ++ m) =
      ⟨true, [BackendCall.send_privmsg "NickServ" (String.mk (dropWs m.data))],
        [], 0, ["/nickserv"]⟩ ∧
    handle_command v conf ("/msg NickServ " ++ m) =
      ⟨true, [BackendCall.send_privmsg "NickServ" (String.mk (dropWs m.data))],
        [], 0, ["/msg"]⟩ ∧
    handle_command v conf ("/ms " ++ m) =
      ⟨true, [BackendCall.send_privmsg "MemoServ" (String.mk (dropWs m.data))],
        [], 0, ["/ms"]⟩ ∧
    handle_command v conf ("/memoserv " ++ m) =
      ⟨true, [BackendCall.send_privmsg "MemoServ" (String.mk (dropWs m.data))],
        [], 0, ["/memoserv"]⟩ ∧
    handle_command v conf ("/msg MemoServ " ++ m) =
      ⟨true, [BackendCall.send_privmsg "MemoServ" (String.mk (dropWs m.data))],
        [], 0, ["/msg"]⟩ := by
  refine ⟨?_, ?_, ?_, ?_, ?_, ?_⟩
  · show handleChars v conf ("/ns " ++ m).data = _
    rw [show ("/ns " ++ m).data = '/' :: ['n', 's'] ++ ' ' :: m.data from by
      rw [String.data_append]; rfl]
    exact handle_one_arg v conf ['n', 's'] m "/ns <message>" msg_nickserv
      (by decide) (by decide) h2 h3 rfl rfl rfl
  · show handleChars v conf ("/nickserv " ++ m).data = _
    rw [show ("/nickserv " ++ m).data =
        '/' :: ['n', 'i', 'c', 'k', 's', 'e', 'r', 'v'] ++ ' ' :: m.data from by
      rw [String.data_append]; rfl]
    exact handle_one_arg v conf ['n', 'i', 'c', 'k', 's', 'e', 'r', 'v'] m
      "/nickserv <message>" msg_nickserv (by decide) (by decide) h2 h3 rfl rfl rfl
  · show handleChars v conf ("/msg NickServ " ++ m).data = _
    rw [show ("/msg NickServ " ++ m).data =
        '/' :: ['m', 's', 'g'] ++
          ' ' :: (['N', 'i', 'c', 'k', 'S', 'e', 'r', 'v'] ++ ' ' :: m.data) from by
      rw [String.data_append]; rfl]
    exact handle_two_arg v conf ['m', 's', 'g'] ['N', 'i', 'c', 'k', 'S', 'e', 'r', 'v']
      m "/msg <nick> <message>" msg (by decide) (by decide) (by decide) (by decide)
      (by decide) h2 h3 rfl rfl rfl
  · show handleChars v conf ("/ms " ++ m).data = _
    rw [show ("/ms " ++ m).data = '/' :: ['m', 's'] ++ ' ' :: m.data from by
      rw [String.data_append]; rfl]
    exact handle_one_arg v conf ['m', 's'] m "/ms <message>" msg_memoserv
      (by decide) (by decide) h2 h3 rfl rfl rfl
  · show handleChars v conf ("/memoserv " ++ m).data = _
    rw [show ("/memoserv " ++ m).data =
        '/' :: ['m', 'e', 'm', 'o', 's', 'e', 'r', 'v'] ++ ' ' :: m.data from by
      rw [String.data_append]; rfl]
    exact handle_one_arg v conf ['m', 'e', 'm', 'o', 's', 'e', 'r', 'v'] m
      "/memoserv <message>" msg_memoserv (by decide) (by decide) h2 h3 rfl rfl rfl
  · show handleChars v conf ("/msg MemoServ " ++ m).data = _
    rw [show ("/msg MemoServ " ++ m).data =
        '/' :: ['m', 's', 'g'] ++
          ' ' :: (['M', 'e', 'm', 'o', 'S', 'e', 'r', 'v'] ++ ' ' :: m.data) from by
      rw [String.data_append]; rfl]
    exact handle_two_arg v conf ['m', 's', 'g'] ['M', 'e', 'm', 'o', 'S', 'e', 'r', 'v']
      m "/msg <nick> <message>" msg (by decide) (by decide) (by decide) (by decide)
      (by decide) h2 h3 rfl rfl rfl

/-- C9, witness for the amended theorem at a plain one-word message. -/
theorem C9_witness :
    ("hi".data ≠ [] ∧ hasNewline "hi".data = false ∧ dropWs "hi".data ≠ []) ∧
    (handle_command (View.channelView "#x") true ("/ns " ++ "hi") =
      ⟨true, [BackendCall.send_privmsg "NickServ" (String.mk (dropWs "hi".data))],
        [], 0, ["/ns"]⟩ ∧
    handle_command (View.channelView "#x") true ("/nickserv " ++ "hi") =
      ⟨true, [BackendCall.send_privmsg "NickServ" (String.mk (dropWs "hi".data))],
        [], 0, ["/nickserv"]⟩ ∧
    handle_command (View.channelView "#x") true ("/msg NickServ " ++ "hi") =
      ⟨true, [BackendCall.send_privmsg "NickServ" (String.mk (dropWs "hi".data))],
        [], 0, ["/msg"]⟩ ∧
    handle_command (View.channelView "#x") true ("/ms " ++ "hi") =
      ⟨true, [BackendCall.send_privmsg "MemoServ" (String.mk (dropWs "hi".data))],
        [], 0, ["/ms"]⟩ ∧
    handle_command (View.channelView "#x") true ("/memoserv " ++ "hi") =
      ⟨true, [BackendCall.send_privmsg "MemoServ" (String.mk (dropWs "hi".data))],
        [], 0, ["/memoserv"]⟩ ∧
    handle_command (View.channelView "#x") true ("/msg MemoServ " ++ "hi") =
      ⟨true, [BackendCall.send_privmsg "MemoServ" (String.mk (dropWs "hi".data))],
        [], 0, ["/msg"]⟩) :=
  ⟨⟨by decide, by decide, by decide⟩,
    C9_amended "hi" (by decide) (by decide) (by decide) (View.channelView "#x") true⟩

theorem splitB_clean : ∀ s : List Char,
    (∀ c ∈ s, isLineBoundary c = false) → splitB s = [s]
  | [], _ => rfl
  | [c], h => by
    have hc := h c (by simp)
    simp [splitB, hc]
  | c :: d :: rest, h => by
    have hc := h c (by simp)
    have hcr : c ≠ '\r' := by
      intro hx
      rw [hx] at hc
      exact absurd hc (by decide)
    have ih := splitB_clean (d :: rest) (fun x hx => h x (by simp [hx]))
    simp [splitB, hc, hcr, ih]

theorem splitlines_single (s : List Char) (h1 : s ≠ [])
    (h2 : ∀ c ∈ s, isLineBoundary c = false) : splitlinesPy s = [s] := by
  cases s with
  | nil => exact absurd rfl h1
  | cons c r =>
    show splitlinesPy (c :: r) = [c :: r]
    unfold splitlinesPy
    rw [splitB_clean (c :: r) h2]
    simp

theorem escape_plain (s : String) (h1 : s.data ≠ [])
    (h2 : ∀ c ∈ s.data, isLineBoundary c = false) :
    isCommandInput (escape_message s).data = false ∧
    (escape_message s).data ≠ [] ∧
    plainLines (escape_message s).data = [s.data] := by
  cases hd : s.data with
  | nil => exact absurd hd h1
  | cons c r =>
    by_cases hc : c = '/'
    · have hesc : escape_message s = "/" ++ s := by
        unfold escape_message
        rw [if_pos (by rw [hd, hc]; rfl)]
      have hdata : (escape_message s).data = '/' :: '/' :: r := by
        rw [hesc, String.data_append, hd, hc]
        rfl
      refine ⟨?_, ?_, ?_⟩
      · rw [hdata]
        simp [isCommandInput, List.takeWhile_cons,
          show isLowerAZ '/' = false from by decide]
      · rw [hdata]
        simp
      · rw [hdata]
        unfold plainLines
        rw [if_pos (show List.take 2 ('/' :: '/' :: r) = ['/', '/'] from rfl)]
        show splitlinesPy ('/' :: r) = [c :: r]
        rw [← hc]
        rw [hd] at h2
        exact splitlines_single (c :: r) (by simp) h2
    · have hesc : escape_message s = s := by
        unfold escape_message
        rw [if_neg ?_]
        rw [hd]
        show ¬[c] = ['/']
        simp [hc]
      refine ⟨?_, ?_, ?_⟩
      · rw [hesc, hd]
        simp [isCommandInput, hc]
      · rw [hesc, hd]
        simp
      · rw [hesc]
        unfold plainLines
        have hcond : ¬s.data.take 2 = ['/', '/'] := by
          rw [hd]
          intro hx
          cases r with
          | nil =>
            have hlen := congrArg List.length hx
            simp at hlen
          | cons b r2 =>
            have hx2 : [c, b] = ['/', '/'] := hx
            simp only [List.cons.injEq] at hx2
            exact hc hx2.1
        rw [if_neg hcond, splitlines_single s.data h1 h2, hd]

/-- C10. Escaping then dispatching round-trips: for every non-empty
single-line message that is not solely whitespace, dispatching the escaped
message in a channel or direct-message context takes the plain-text path,
never attempting a command lookup regardless of a leading slash, and
issues exactly one send whose text is the original message itself. -/
theorem C10 (s : String) (cn pn : String) (conf : Bool)
    (h1 : s.data ≠ [])
    (h2 : ∀ c ∈ s.data, isLineBoundary c = false)
    (h3 : dropWs s.data ≠ []) :
    ((handle_command (View.channelView cn) conf (escape_message s)).lookups = [] ∧
      (handle_command (View.channelView cn) conf (escape_message s)).calls =
        [BackendCall.send_privmsg cn s]) ∧
    ((handle_command (View.pmView pn) conf (escape_message s)).lookups = [] ∧
      (handle_command (View.pmView pn) conf (escape_message s)).calls =
        [BackendCall.send_privmsg pn s]) := by
  obtain ⟨hcc, hne, hpl⟩ := escape_plain s h1 h2
  have hch := handleChars_plain (View.channelView cn) conf (escape_message s).data hne hcc
  have hpm := handleChars_plain (View.pmView pn) conf (escape_message s).data hne hcc
  constructor
  · constructor
    · show (handleChars (View.channelView cn) conf (escape_message s).data).lookups = []
      rw [hch]
      exact plainPath_lookups _ _ _
    · show (handleChars (View.channelView cn) conf (escape_message s).data).calls = _
      rw [hch, hpl]
      unfold plainPath
      rw [if_neg (by simp)]
      simp [sendLines_channel, mk_data]
  · constructor
    · show (handleChars (View.pmView pn) conf (escape_message s).data).lookups = []
      rw [hpm]
      exact plainPath_lookups _ _ _
    · show (handleChars (View.pmView pn) conf (escape_message s).data).calls = _
      rw [hpm, hpl]
      unfold plainPath
      rw [if_neg (by simp)]
      simp [sendLines_pm, mk_data]

/-- C10, witness at a slash-initial message, where the escape matters. -/
theorem C10_witness :
    ("/hello".data ≠ [] ∧ (∀ c ∈ "/hello".data, isLineBoundary c = false) ∧
      dropWs "/hello".data ≠ []) ∧
    (((handle_command (View.channelView "#c") true (escape_message "/hello")).lookups = [] ∧
      (handle_command (View.channelView "#c") true (escape_message "/hello")).calls =
        [BackendCall.send_privmsg "#c" "/hello"]) ∧
    ((handle_command (View.pmView "bob") true (escape_message "/hello")).lookups = [] ∧
      (handle_command (View.pmView "bob") true (escape_message "/hello")).calls =
        [BackendCall.send_privmsg "bob" "/hello"])) :=
  ⟨⟨by decide, by decide, by decide⟩,
    C10 "/hello" "#c" "bob" true (by decide) (by decide) (by decide)⟩

theorem splitOnSpace_ne_nil : ∀ s : List Char, splitOnSpace s ≠ []
  | [] => by simp [splitOnSpace]
  | c :: rest => by
    by_cases hc : c = ' '
    · simp [splitOnSpace, hc]
    · have h := splitOnSpace_ne_nil rest
      simp only [splitOnSpace, hc, if_false]
      cases hs : splitOnSpace rest with
      | nil => exact absurd hs h
      | cons t ts => simp

theorem join_split : ∀ s : List Char, joinSpace (splitOnSpace s) = s
  | [] => rfl
  | c :: rest => by
    have ih := join_split rest
    by_cases hc : c = ' '
    · subst hc
      have h1 : splitOnSpace (' ' :: rest) = [] :: splitOnSpace rest := by
        simp [splitOnSpace]
      rw [h1]
      cases hs : splitOnSpace rest with
      | nil => exact absurd hs (splitOnSpace_ne_nil rest)
      | cons t ts =>
        rw [hs] at ih
        show joinSpace ([] :: t :: ts) = ' ' :: rest
        rw [show joinSpace ([] :: t :: ts) = [] ++ ' ' :: joinSpace (t :: ts) from rfl]
        rw [List.nil_append, ih]
    · have h1 : splitOnSpace (c :: rest) =
          (match splitOnSpace rest with
           | [] => [[c]]
           | t :: ts => (c :: t) :: ts) := by
        simp [splitOnSpace, hc]
      cases hs : splitOnSpace rest with
      | nil => exact absurd hs (splitOnSpace_ne_nil rest)
      | cons t ts =>
        rw [hs] at h1 ih
        simp only at h1
        rw [h1]
        cases ts with
        | nil =>
          show c :: t = c :: rest
          rw [show joinSpace [t] = t from rfl] at ih
          rw [ih]
        | cons t2 ts2 =>
          show (c :: t) ++ ' ' :: joinSpace (t2 :: ts2) = c :: rest
          rw [List.cons_append]
          rw [show t ++ ' ' :: joinSpace (t2 :: ts2) = joinSpace (t :: t2 :: ts2) from rfl]

          rw [ih]

theorem splitOnSpace_nospace : ∀ t : List Char, ' ' ∉ t → splitOnSpace t = [t]
  | [], _ => rfl
  | c :: r, h => by
    have hc : ¬c = ' ' := fun hx => h (by rw [hx]; simp)
    have ih := splitOnSpace_nospace r (fun hx => h (by simp [hx]))
    simp only [splitOnSpace, hc, if_false, ih]

theorem splitOnSpace_append : ∀ t r : List Char, ' ' ∉ t →
    splitOnSpace (t ++ ' ' :: r) = t :: splitOnSpace r
  | [], r, _ => by simp [splitOnSpace]
  | c :: t, r, h => by
    have hc : ¬c = ' ' := fun hx => h (by rw [hx]; simp)
    have ih := splitOnSpace_append t r (fun hx => h (by simp [hx]))
    rw [List.cons_append]
    simp only [splitOnSpace, hc, if_false, ih]

theorem split_join : ∀ ts : List (List Char), ts ≠ [] →
    (∀ t ∈ ts, ' ' ∉ t) → splitOnSpace (joinSpace ts) = ts
  | [], h, _ => absurd rfl h
  | [t], _, hall => by
    show splitOnSpace t = [t]
    exact splitOnSpace_nospace t (hall t (by simp))
  | t :: t2 :: ts, _, hall => by
    have ih := split_join (t2 :: ts) (by simp)
      (fun x hx => hall x (by simp [List.mem_cons.mp hx]))
    show splitOnSpace (t ++ ' ' :: joinSpace (t2 :: ts)) = t :: t2 :: ts
    rw [splitOnSpace_append t _ (hall t (by simp)), ih]

theorem isReqTok_iff (t : List Char) :
    isReqTok t = true ↔ ∃ id, t = reqTokChars id ∧ goodIdent id := by
  constructor
  · intro h
    cases t with
    | nil => simp [isReqTok] at h
    | cons c rest =>
      simp only [isReqTok, Bool.and_eq_true, decide_eq_true_eq,
        Bool.not_eq_eq_eq_not, Bool.not_true, List.isEmpty_eq_false] at h
      obtain ⟨⟨hc, hne⟩, hdrop⟩ := h
      refine ⟨rest.takeWhile isIdentChar, ?_, hne, ?_⟩
      · unfold reqTokChars
        rw [hc, List.cons_append]
        have : rest = rest.takeWhile isIdentChar ++ rest.dropWhile isIdentChar :=
          (List.takeWhile_append_dropWhile isIdentChar rest).symm
        rw [hdrop] at this
        rw [← this]
      · rw [List.all_eq_true]
        intro x hx
        exact mem_takeWhile isIdentChar rest x hx
  · rintro ⟨id, rfl, hne, hall⟩
    have hall2 : ∀ c ∈ id, isIdentChar c = true := List.all_eq_true.mp hall
    have h2 := takeWhile_append_stop isIdentChar id '>' [] hall2 (by decide)
    unfold reqTokChars
    rw [List.cons_append]
    simp [isReqTok, h2.1, h2.2, hne]

theorem isOptTok_iff (t : List Char) :
    isOptTok t = true ↔ ∃ id, t = optTokChars id ∧ goodIdent id := by
  constructor
  · intro h
    match t with
    | [] => simp [isOptTok] at h
    | [_] => simp [isOptTok] at h
    | c :: d :: rest =>
      simp only [isOptTok, Bool.and_eq_true, decide_eq_true_eq,
        Bool.not_eq_eq_eq_not, Bool.not_true, List.isEmpty_eq_false] at h
      obtain ⟨⟨⟨hc, hd⟩, hne⟩, hdrop⟩ := h
      refine ⟨rest.takeWhile isIdentChar, ?_, hne, ?_⟩
      · unfold optTokChars
        rw [hc, hd, List.cons_append, List.cons_append]
        have : rest = rest.takeWhile isIdentChar ++ rest.dropWhile isIdentChar :=
          (List.takeWhile_append_dropWhile isIdentChar rest).symm
        rw [hdrop] at this
        rw [← this]
      · rw [List.all_eq_true]
        intro x hx
        exact mem_takeWhile isIdentChar rest x hx
  · rintro ⟨id, rfl, hne, hall⟩
    have hall2 : ∀ c ∈ id, isIdentChar c = true := List.all_eq_true.mp hall
    have h2 := takeWhile_append_stop isIdentChar id '>' [']'] hall2 (by decide)
    unfold optTokChars
    rw [List.cons_append, List.cons_append]
    simp [isOptTok, h2.1, h2.2, hne]

theorem cmdNameTok_iff (t : List Char) :
    cmdNameTok t = true ↔
      ∃ name, t = '/' :: name ∧ name ≠ [] ∧ name.all isLowerAZ = true := by
  constructor
  · intro h
    cases t with
    | nil => simp [cmdNameTok] at h
    | cons c rest =>
      simp only [cmdNameTok, Bool.and_eq_true, decide_eq_true_eq,
        Bool.not_eq_eq_eq_not, Bool.not_true, List.isEmpty_eq_false] at h
      exact ⟨rest, by rw [h.1.1], h.1.2, h.2⟩
  · rintro ⟨name, rfl, hne, hall⟩
    simp [cmdNameTok, hne, hall]

theorem isReqTok_opt_shape (id : List Char) : isReqTok (optTokChars id) = false := rfl

theorem isOptTok_req_shape (id : List Char) : isOptTok (reqTokChars id) = false := by
  unfold reqTokChars
  cases id with
  | nil => rfl
  | cons c r => rfl

theorem allOptToks_iff (ts : List (List Char)) :
    allOptToks ts = true ↔ ∀ t ∈ ts, isOptTok t = true := by
  induction ts with
  | nil => simp [allOptToks]
  | cons t ts ih =>
    simp only [allOptToks, Bool.and_eq_true, ih, List.mem_cons]
    constructor
    · rintro ⟨h1, h2⟩ x (rfl | hx)
      · exact h1
      · exact h2 x hx
    · intro h
      exact ⟨h t (Or.inl rfl), fun x hx => h x (Or.inr hx)⟩

theorem reqThenOpt_of : ∀ rs os : List (List Char),
    (∀ t ∈ rs, isReqTok t = true) → (∀ t ∈ os, isOptTok t = true) →
    reqThenOpt (rs ++ os) = true
  | [], os, _, hos => by
    cases os with
    | nil => rfl
    | cons o os2 =>
      have ho := hos o (by simp)
      obtain ⟨id, rfl, -⟩ := (isOptTok_iff o).mp ho
      show reqThenOpt (optTokChars id :: os2) = true
      unfold reqThenOpt
      rw [isReqTok_opt_shape id, if_neg (by simp)]
      exact (allOptToks_iff _).mpr hos
  | r :: rs, os, hrs, hos => by
    have hr := hrs r (by simp)
    have ih := reqThenOpt_of rs os (fun t ht => hrs t (by simp [ht])) hos
    rw [List.cons_append]
    unfold reqThenOpt
    rw [if_pos hr]
    exact ih

theorem reqThenOpt_to : ∀ ts : List (List Char), reqThenOpt ts = true →
    ∃ rs os, ts = rs ++ os ∧ (∀ t ∈ rs, isReqTok t = true) ∧
      (∀ t ∈ os, isOptTok t = true)
  | [], _ => ⟨[], [], rfl, by simp, by simp⟩
  | t :: ts, h => by
    by_cases hr : isReqTok t = true
    · unfold reqThenOpt at h
      rw [if_pos hr] at h
      obtain ⟨rs, os, rfl, hrs, hos⟩ := reqThenOpt_to ts h
      refine ⟨t :: rs, os, rfl, ?_, hos⟩
      intro x hx
      rcases List.mem_cons.mp hx with rfl | hx
      · exact hr
      · exact hrs x hx
    · unfold reqThenOpt at h
      rw [if_neg hr] at h
      exact ⟨[], t :: ts, rfl, by simp, (allOptToks_iff _).mp h⟩

theorem allOptToks_mem_false (ts : List (List Char)) (x : List Char)
    (hx : x ∈ ts) (hopt : isOptTok x = false) : allOptToks ts = false := by
  induction ts with
  | nil => simp at hx
  | cons t ts ih =>
    unfold allOptToks
    rcases List.mem_cons.mp hx with rfl | hmem
    · rw [hopt]
      rfl
    · rw [ih hmem]
      simp

theorem reqThenOpt_bad : ∀ (xs : List (List Char)) (o : List Char)
    (ys : List (List Char)) (x : List Char) (zs : List (List Char)),
    isReqTok o = false → isOptTok x = false →
    reqThenOpt (xs ++ o :: (ys ++ x :: zs)) = false
  | [], o, ys, x, zs, ho, hx => by
    rw [List.nil_append]
    unfold reqThenOpt
    rw [if_neg (by simp [ho])]
    exact allOptToks_mem_false _ x (by simp) hx
  | c :: xs, o, ys, x, zs, ho, hx => by
    have ih := reqThenOpt_bad xs o ys x zs ho hx
    rw [List.cons_append]
    unfold reqThenOpt
    by_cases hc : isReqTok c = true
    · rw [if_pos hc]
      exact ih
    · rw [if_neg hc]
      exact allOptToks_mem_false _ x (by simp) hx

theorem lower_no_space (c : Char) (h : isLowerAZ c = true) : c ≠ ' ' := by
  intro hx
  rw [hx] at h
  exact absurd h (by decide)

theorem reqTok_no_space (id : List Char) (h : goodIdent id) :
    ' ' ∉ reqTokChars id := by
  unfold reqTokChars
  intro hmem
  rcases List.mem_append.mp hmem with h1 | h1
  · rcases List.mem_cons.mp h1 with h2 | h2
    · exact absurd h2 (by decide)
    · have := List.all_eq_true.mp h.2 ' ' h2
      exact absurd this (by decide)
  · simp at h1

theorem optTok_no_space (id : List Char) (h : goodIdent id) :
    ' ' ∉ optTokChars id := by
  unfold optTokChars
  intro hmem
  rcases List.mem_append.mp hmem with h1 | h1
  · rcases List.mem_cons.mp h1 with h2 | h2
    · exact absurd h2 (by decide)
    · rcases List.mem_cons.mp h2 with h3 | h3
      · exact absurd h3 (by decide)
      · have := List.all_eq_true.mp h.2 ' ' h3
        exact absurd this (by decide)
  · simp at h1

theorem toks_req_map (rs : List (List Char)) :
    (∀ t ∈ rs, isReqTok t = true) →
    ∃ reqs : List (List Char), rs = reqs.map reqTokChars ∧ ∀ id ∈ reqs, goodIdent id := by
  induction rs with
  | nil =>
    intro _
    exact ⟨[], rfl, by simp⟩
  | cons t rs ih =>
    intro h
    obtain ⟨id, ht, hgood⟩ := (isReqTok_iff t).mp (h t (by simp))
    obtain ⟨reqs, hrs, hgoods⟩ := ih (fun x hx => h x (by simp [hx]))
    refine ⟨id :: reqs, ?_, ?_⟩
    · rw [List.map_cons, ← ht, ← hrs]
    · intro x hx
      rcases List.mem_cons.mp hx with rfl | hx
      · exact hgood
      · exact hgoods x hx

theorem toks_opt_map (os : List (List Char)) :
    (∀ t ∈ os, isOptTok t = true) →
    ∃ opts : List (List Char), os = opts.map optTokChars ∧ ∀ id ∈ opts, goodIdent id := by
  induction os with
  | nil =>
    intro _
    exact ⟨[], rfl, by simp⟩
  | cons t os ih =>
    intro h
    obtain ⟨id, ht, hgood⟩ := (isOptTok_iff t).mp (h t (by simp))
    obtain ⟨opts, hos, hgoods⟩ := ih (fun x hx => h x (by simp [hx]))
    refine ⟨id :: opts, ?_, ?_⟩
    · rw [List.map_cons, ← ht, ← hos]
    · intro x hx
      rcases List.mem_cons.mp hx with rfl | hx
      · exact hgood
      · exact hgoods x hx

theorem validUsage_iff (u : List Char) :
    validUsage u = true ↔ usageGrammar u := by
  constructor
  · intro h
    cases hs : splitOnSpace u with
    | nil => exact absurd hs (splitOnSpace_ne_nil u)
    | cons t ts =>
      unfold validUsage at h
      rw [hs] at h
      simp only at h
      rw [Bool.and_eq_true] at h
      obtain ⟨hname, hrto⟩ := h
      obtain ⟨name, rfl, hne, hall⟩ := (cmdNameTok_iff t).mp hname
      obtain ⟨rs, os, rfl, hrs, hos⟩ := reqThenOpt_to ts hrto
      obtain ⟨reqs, rfl, hgr⟩ := toks_req_map rs hrs
      obtain ⟨opts, rfl, hgo⟩ := toks_opt_map os hos
      refine ⟨name, reqs, opts, ?_, hne, hall, hgr, hgo⟩
      rw [← join_split u, hs]
      rfl
  · rintro ⟨name, reqs, opts, rfl, hne, hall, hgr, hgo⟩
    have hnospace : ∀ t ∈ ('/' :: name) ::
        (reqs.map reqTokChars ++ opts.map optTokChars), ' ' ∉ t := by
      intro t ht
      rcases List.mem_cons.mp ht with rfl | ht
      · intro hmem
        rcases List.mem_cons.mp hmem with h2 | h2
        · exact absurd h2 (by decide)
        · have := List.all_eq_true.mp hall ' ' h2
          exact absurd this (by decide)
      · rcases List.mem_append.mp ht with ht | ht
        · obtain ⟨id, hid, rfl⟩ := List.mem_map.mp ht
          exact reqTok_no_space id (hgr id hid)
        · obtain ⟨id, hid, rfl⟩ := List.mem_map.mp ht
          exact optTok_no_space id (hgo id hid)
    unfold validUsage mkUsage
    rw [split_join _ (by simp) hnospace]
    simp only
    rw [Bool.and_eq_true]
    constructor
    · exact (cmdNameTok_iff _).mpr ⟨name, rfl, hne, hall⟩
    · apply reqThenOpt_of
      · intro t ht
        obtain ⟨id, hid, rfl⟩ := List.mem_map.mp ht
        exact (isReqTok_iff _).mpr ⟨id, rfl, hgr id hid⟩
      · intro t ht
        obtain ⟨id, hid, rfl⟩ := List.mem_map.mp ht
        exact (isOptTok_iff _).mpr ⟨id, rfl, hgo id hid⟩

/-- C8. The registration assertion accepts a usage string if and only if
it is a slash followed by lowercase letters, then zero or more required
parameter tokens, then zero or more optional parameter tokens, each over
a non-empty identifier of lowercase letters and underscores, with no
required token after any optional one; every usage string registered by
the default command set is accepted; and every usage string with a
required parameter token placed after the optional ones is rejected by
the assertion at registration time. -/
theorem C8 :
    (∀ u : List Char, validUsage u = true ↔ usageGrammar u) ∧
    _commands.all (fun e => add_command e.2.1) = true ∧
    (∀ name reqs opts late,
      name ≠ [] → name.all isLowerAZ = true →
      (∀ id ∈ reqs, goodIdent id) → (∀ id ∈ opts, goodIdent id) →
      (∀ id ∈ late, goodIdent id) → opts ≠ [] → late ≠ [] →
      validUsage (mkUsageBad name reqs opts late) = false) := by
  refine ⟨validUsage_iff, by decide, ?_⟩
  intro name reqs opts late hne hall hgr hgo hgl hone hlne
  cases opts with
  | nil => exact absurd rfl hone
  | cons o0 orest =>
    cases late with
    | nil => exact absurd rfl hlne
    | cons l0 lrest =>
      have hnospace : ∀ t ∈ ('/' :: name) ::
          (reqs.map reqTokChars ++ (o0 :: orest).map optTokChars ++
            (l0 :: lrest).map reqTokChars), ' ' ∉ t := by
        intro t ht
        rcases List.mem_cons.mp ht with rfl | ht
        · intro hmem
          rcases List.mem_cons.mp hmem with h2 | h2
          · exact absurd h2 (by decide)
          · have := List.all_eq_true.mp hall ' ' h2
            exact absurd this (by decide)
        · rcases List.mem_append.mp ht with ht | ht
          · rcases List.mem_append.mp ht with ht | ht
            · obtain ⟨id, hid, rfl⟩ := List.mem_map.mp ht
              exact reqTok_no_space id (hgr id hid)
            · obtain ⟨id, hid, rfl⟩ := List.mem_map.mp ht
              exact optTok_no_space id (hgo id hid)
          · obtain ⟨id, hid, rfl⟩ := List.mem_map.mp ht
            exact reqTok_no_space id (hgl id hid)
      unfold validUsage mkUsageBad
      rw [split_join _ (by simp) hnospace]
      simp only
      rw [show (reqs.map reqTokChars ++ (o0 :: orest).map optTokChars ++
            (l0 :: lrest).map reqTokChars) =
          reqs.map reqTokChars ++ optTokChars o0 ::
            (orest.map optTokChars ++ reqTokChars l0 :: lrest.map reqTokChars) from by
        simp [List.map_cons, List.append_assoc]]
      rw [reqThenOpt_bad (reqs.map reqTokChars) (optTokChars o0)
        (orest.map optTokChars) (reqTokChars l0) (lrest.map reqTokChars)
        (isReqTok_opt_shape o0) (isOptTok_req_shape l0)]
      simp

/-- C8, witness: the deliberately malformed usage string of the claim, a
required parameter after an optional one, is rejected. -/
theorem C8_witness :
    validUsage "/part [<channel>] <x>".data = false :=
  C8.2.2 "part".data [] [['c', 'h', 'a', 'n', 'n', 'e', 'l']] [['x']]
    (by decide) (by decide) (by decide) (by decide) (by decide) (by decide)
    (by decide)

end Mantaray
